import Mathlib

/-!
Shallow embedding of `src/music_visualizer.py` (radial audio visualizer).

Python floats are modelled as real numbers; exact times, pixel ratios and the
glow-alpha arithmetic are modelled over `ℚ`/`ℤ` where the source works with
exact decimal constants and integer truncation.  Stateful drawing (PIL) is
modelled by an explicit display list on a per-frame canvas, and the module
level globals (`audio`, `BG_BASE`, `BAND_EDGES`) are threaded through an
explicit `VisState`.
-/

namespace MusicVisualizer

/-- Configuration constant `W` (target width, px). -/
def W : ℕ := 3840

/-- Configuration constant `H` (target height, px). -/
def H : ℕ := 2160

/-- Configuration constant `FPS`. -/
def FPS : ℕ := 60

/-- Configuration constant `BASE_RADIUS` (px). -/
def BASE_RADIUS : ℝ := 220

/-- Configuration constant `SPOKES` (number of bands). -/
def SPOKES : ℕ := 360

/-- Configuration constant `BAR_THICKNESS` (px). -/
def BAR_THICKNESS : ℤ := 2

/-- Configuration constant `BAR_MIN` (px). -/
def BAR_MIN : ℝ := 4

/-- Configuration constant `BAR_MAX_EXTRA` (px). -/
def BAR_MAX_EXTRA : ℝ := 70

/-- Configuration constant `BASE_RING_ON`. -/
def BASE_RING_ON : Bool := true

/-- Configuration constant `BASE_RING_W`. -/
def BASE_RING_W : ℕ := 1

/-- Configuration constant `GLOW_ON`. -/
def GLOW_ON : Bool := false

/-- Configuration constant `GLOW_STEPS`. -/
def GLOW_STEPS : ℕ := 0

/-- Configuration constant `GLOW_ALPHA` (0..255). -/
def GLOW_ALPHA : ℤ := 80

/-- Configuration constant `GLOW_EXPAND` (extra px of line width per pass). -/
def GLOW_EXPAND : ℤ := 2

/-- Configuration constant `WINDOW_SEC` (`0.10` seconds). -/
def WINDOW_SEC : ℚ := 1 / 10

/-- Configuration constant `LOW_HZ`. -/
def LOW_HZ : ℝ := 30

/-- Configuration constant `HIGH_HZ`. -/
def HIGH_HZ : ℝ := 12000

/-- Configuration constant `SR` (analysis sample rate, Hz). -/
def SR : ℕ := 44100

/-- Ring center x coordinate, `CENTER[0] = W // 2`. -/
def CX : ℝ := (W / 2 : ℕ)

/-- Ring center y coordinate, `CENTER[1] = H / 2.5`. -/
noncomputable def CY : ℝ := (H : ℝ) / (5 / 2 : ℝ)

/-- Normalization epsilon used in `spectrum_to_bands` (`1e-8`). -/
noncomputable def NORM_EPS : ℝ := 1 / 10 ^ 8

/-- Clamped low/high cutoffs computed at the top of `compute_band_edges`
(source lines 127-131): `hi` is clamped to at most `sr/2 - 1`, `lo` to
`max(1, min(low, hi - 1))`, and if `hi <= lo` then `hi` is forced to `lo + 1`. -/
noncomputable def clamped_lo_hi (sr low high : ℝ) : ℝ × ℝ :=
  let hi0 := min high (sr / 2 - 1)
  let lo := max 1 (min low (hi0 - 1))
  (lo, if hi0 ≤ lo then lo + 1 else hi0)

/-- Embedding of `compute_band_edges` (source lines 126-132): `np.geomspace(lo, hi, bands+1)`,
whose `k`-th point is `lo * (hi/lo) ^ (k / bands)`. -/
noncomputable def compute_band_edges (sr low high : ℝ) (bands : ℕ) : List ℝ :=
  let lo := (clamped_lo_hi sr low high).1
  let hi := (clamped_lo_hi sr low high).2
  (List.range (bands + 1)).map (fun k : ℕ => lo * (hi / lo) ^ ((k : ℝ) / (bands : ℝ)))

/-- The precomputed global `BAND_EDGES = compute_band_edges()` (source line 134). -/
noncomputable def BAND_EDGES : List ℝ :=
  compute_band_edges (SR : ℝ) LOW_HZ HIGH_HZ SPOKES

/-- Model of `np.searchsorted(edges, x, side="right")` for a sorted `edges`: the number
of entries that are `≤ x` (source line 143). -/
noncomputable def searchsorted_right (edges : List ℝ) (x : ℝ) : ℕ :=
  edges.countP (fun e => decide (e ≤ x))

/-- Band index of a frequency `x` (source lines 143-144):
`np.clip(np.searchsorted(edges, x, side="right") - 1, 0, bands - 1)`.
Natural subtraction mirrors the lower clip at 0. -/
noncomputable def band_index (edges : List ℝ) (x : ℝ) (bands : ℕ) : ℕ :=
  min (searchsorted_right edges x - 1) (bands - 1)

/-- The kept (frequency, magnitude) pairs (source lines 139-142): the mask
`(freqs >= edges[0]) & (freqs <= edges[-1])` applied to the zipped spectrum. -/
noncomputable def keptPairs (edges freqs mags : List ℝ) : List (ℝ × ℝ) :=
  (freqs.zip mags).filter
    (fun p => decide (edges.head?.getD 0 ≤ p.1 ∧ p.1 ≤ edges.getLast?.getD 0))

/-- The per-band magnitude sums (source lines 138-145): `out = np.zeros(bands)`
followed by `np.add.at(out, idx, m)`, i.e. band `i` holds the total magnitude
of the kept bins whose `band_index` is `i`. -/
noncomputable def band_sums (edges freqs mags : List ℝ) : List ℝ :=
  (List.range (edges.length - 1)).map (fun i =>
    (((keptPairs edges freqs mags).filter
        (fun p => decide (band_index edges p.1 (edges.length - 1) = i))).map
      Prod.snd).sum)

/-- Model of `np.log1p` (source line 146). -/
noncomputable def log1p (x : ℝ) : ℝ := Real.log (1 + x)

/-- Edge-replicated padding lookup (source line 152,
`np.pad(out, (4, 4), mode="edge")` read at index `j`). -/
noncomputable def edgePad4 (l : List ℝ) (j : ℕ) : ℝ :=
  l.getD (min (j - 4) (l.length - 1)) 0

/-- Centered moving average of window 9 with edge-replicated padding
(source lines 148-153): entry `k` is the mean of the padded values at
`k .. k+8`, which sit over original indices `k-4 .. k+4` clamped to range. -/
noncomputable def smooth9 (l : List ℝ) : List ℝ :=
  (List.range l.length).map (fun k => (∑ d ∈ Finset.range 9, edgePad4 l (k + d)) / 9)

/-- Model of `np.max` of a nonempty array (source line 154); `0` for the empty list. -/
noncomputable def npMax (l : List ℝ) : ℝ :=
  match l with
  | [] => 0
  | x :: xs => xs.foldl max x

/-- The band values after compression and smoothing but before normalization
(source lines 146-153): `log1p` of every band sum, then the window-9 smoothing
when there are at least 9 bands. -/
noncomputable def band_block (freqs mags edges : List ℝ) : List ℝ :=
  let out2 := (band_sums edges freqs mags).map log1p
  if 9 ≤ edges.length - 1 then smooth9 out2 else out2

/-- Embedding of `spectrum_to_bands` (source lines 136-157): all-zero levels when no bin is
kept, otherwise sums → `log1p` → smoothing → divide by the maximum unless it is
at most `1e-8`. -/
noncomputable def spectrum_to_bands (freqs mags edges : List ℝ) : List ℝ :=
  if keptPairs edges freqs mags = [] then List.replicate (edges.length - 1) 0
  else
    let out := band_block freqs mags edges
    if NORM_EPS < npMax out then out.map (fun v => v / npMax out) else out

/-- Bar length for a normalized level (source line 164):
`BAR_MIN + BAR_MAX_EXTRA * clip(level, 0, 1) ** 0.9` (real exponent). -/
noncomputable def bar_height (level : ℝ) : ℝ :=
  BAR_MIN + BAR_MAX_EXTRA * (min (max level 0) 1) ^ (0.9 : ℝ)

/-- Angle of the `i`-th of `n` spokes (source line 163,
`np.linspace(0, 2*pi, n, endpoint=False)`). -/
noncomputable def spoke_theta (i n : ℕ) : ℝ :=
  2 * Real.pi * (i : ℝ) / (n : ℝ)

/-- Line segment of the `i`-th spoke (source lines 166-171): from the point at
radius `BASE_RADIUS` to the point at radius `BASE_RADIUS + bar_height level`
along the ray at `spoke_theta i n` from the center. -/
noncomputable def spoke_seg (levels : List ℝ) (i : ℕ) : (ℝ × ℝ) × (ℝ × ℝ) :=
  let θ := spoke_theta i levels.length
  let h := bar_height (levels.getD i 0)
  ((CX + BASE_RADIUS * Real.cos θ, CY + BASE_RADIUS * Real.sin θ),
   (CX + (BASE_RADIUS + h) * Real.cos θ, CY + (BASE_RADIUS + h) * Real.sin θ))

/-- Drawing primitives issued against a frame's `ImageDraw` handle. -/
inductive DrawOp : Type
  | ellipse (box : (ℝ × ℝ) × (ℝ × ℝ)) (outline : ℤ × ℤ × ℤ × ℤ) (lineW : ℕ)
  | line (seg : (ℝ × ℝ) × (ℝ × ℝ)) (fill : ℤ × ℤ × ℤ × ℤ) (lineW : ℤ)

/-- Embedding of `draw_spokes` (source lines 160-171) as the list of line primitives it
issues: effective width `max 1 width`, one segment per level. -/
noncomputable def draw_spokes (levels : List ℝ) (color : ℤ × ℤ × ℤ × ℤ)
    (width : ℤ) : List DrawOp :=
  (List.range levels.length).map
    (fun i => DrawOp.line (spoke_seg levels i) color (max 1 width))

/-- Width of glow pass `i` (source line 195):
`BAR_THICKNESS + i * GLOW_EXPAND`. -/
def glow_width (i : ℕ) : ℤ := BAR_THICKNESS + (i : ℤ) * GLOW_EXPAND

/-- Python `int()` truncation toward zero on an exact rational. -/
def pyInt (q : ℚ) : ℤ := if q < 0 then -⌊-q⌋ else ⌊q⌋

/-- Alpha of glow pass `i` of `steps` (source line 196):
`max(0, int(GLOW_ALPHA * (1.0 - (i - 1) / max(1, steps))))`. -/
def glow_alpha (steps i : ℕ) : ℤ :=
  max 0 (pyInt ((GLOW_ALPHA : ℚ) * (1 - ((i : ℚ) - 1) / max 1 (steps : ℚ))))

/-- The `(width, alpha)` pairs of the glow passes `i = 1 .. steps`
(source lines 193-197). -/
def glow_passes (steps : ℕ) : List (ℤ × ℤ) :=
  (List.range steps).map (fun j => (glow_width (j + 1), glow_alpha steps (j + 1)))

/-- All `(width, alpha)` spoke passes of one frame, in draw order
(source lines 192-200): the glow passes when enabled, then the final sharp
pass at `BAR_THICKNESS` with alpha 255. -/
def frame_passes (glowOn : Bool) (steps : ℕ) : List (ℤ × ℤ) :=
  (if glowOn = true ∧ 0 < steps then glow_passes steps else []) ++
    [(BAR_THICKNESS, 255)]

/-- The audio source as the core sees it.  Modelled from the spec: the
sub-range extraction (`subclip_compat` + `to_soundarray`, source lines 95-110)
is an external collaborator exposing `duration` and
`read_mono_window(start, end, sample_rate)`, which may return a shorter
sequence near the track boundaries. -/
structure AudioTrack : Type where
  duration : ℚ
  samples : ℚ → ℚ → ℕ → List ℝ

/-- Start and end time of the analysis window at timestamp `t`
(source lines 103-106): `[max(0, t - win/2), min(D, t + win/2))`, extended by
`max(1/FPS, 0.01)` when degenerate. -/
def audio_window_range (dur t win : ℚ) : ℚ × ℚ :=
  let start := max 0 (t - win / 2)
  let e0 := min dur (t + win / 2)
  (start, if e0 ≤ start then min dur (start + max (1 / (FPS : ℚ)) (1 / 100)) else e0)

/-- Model of `np.hanning(n)` read at index `j` (source line 114); `np.hanning(1) = [1]`. -/
noncomputable def hann (n j : ℕ) : ℝ :=
  if n = 1 then 1 else 1 / 2 - 1 / 2 * Real.cos (2 * Real.pi * (j : ℝ) / ((n : ℝ) - 1))

/-- Embedding of `get_audio_window` (source lines 102-115): extract the mono sub-range over
the computed window, fall back to `int(sr * win_sec)` zeros when it is empty,
otherwise taper it with a Hann window of its own length. -/
noncomputable def get_audio_window (track : AudioTrack) (t win_sec : ℚ)
    (sr : ℕ) : List ℝ :=
  let r := audio_window_range track.duration t win_sec
  let arr := track.samples r.1 r.2 sr
  if arr.length = 0 then List.replicate (Int.toNat ⌊(sr : ℚ) * win_sec⌋) 0
  else (List.range arr.length).map (fun j => arr.getD j 0 * hann arr.length j)

/-- Discrete Fourier transform of a real sequence at bin `k`
(`np.fft.rfft`, source line 121): `∑ j, sig[j] * exp(-2πi·j·k/n)`. -/
noncomputable def dftPoint (sig : List ℝ) (k : ℕ) : ℂ :=
  ∑ j ∈ Finset.range sig.length,
    (sig.getD j 0 : ℂ) *
      Complex.exp (-(2 * (Real.pi : ℂ) * Complex.I * (j : ℂ) * (k : ℂ)) / (sig.length : ℂ))

/-- Embedding of `fft_magnitude` (source lines 117-124): a single zero bin when `n ≤ 1`,
otherwise the bin centers `k * sr / n` and the one-sided magnitude spectrum
`|rfft(sig)|`, both of length `n / 2 + 1`. -/
noncomputable def fft_magnitude (sig : List ℝ) (sr : ℝ) : List ℝ × List ℝ :=
  let n := sig.length
  if n ≤ 1 then ([0], [0])
  else
    ((List.range (n / 2 + 1)).map (fun k : ℕ => (k : ℝ) * sr / (n : ℝ)),
     (List.range (n / 2 + 1)).map (fun k => Complex.abs (dftPoint sig k)))

/-- A pixel image (RGBA valued). -/
def Img : Type := ℕ × ℕ → ℤ × ℤ × ℤ × ℤ

/-- A per-frame draw target: the pixels it started from and the primitives
drawn onto it, in order. -/
structure Canvas : Type where
  base : Img
  ops : List DrawOp

/-- The module-level state shared across frames: the loaded audio clip
(`audio`), the fitted background (`BG_BASE`, source line 92) and the
precomputed `BAND_EDGES` (source line 134). -/
structure VisState : Type where
  track : AudioTrack
  bg : Img
  edges : List ℝ

/-- BandLevels of the frame at timestamp `t` (source lines 175-177):
window → magnitude spectrum → band aggregation. -/
noncomputable def frame_levels (st : VisState) (t : ℚ) : List ℝ :=
  let sig := get_audio_window st.track t WINDOW_SEC SR
  spectrum_to_bands (fft_magnitude sig (SR : ℝ)).1 (fft_magnitude sig (SR : ℝ)).2 st.edges

/-- The base-circle primitive (source lines 185-189). -/
noncomputable def base_ring_op : DrawOp :=
  DrawOp.ellipse ((CX - BASE_RADIUS, CY - BASE_RADIUS), (CX + BASE_RADIUS, CY + BASE_RADIUS))
    (255, 255, 255, 160) BASE_RING_W

/-- The glow primitives of one frame (source lines 192-197): passes
`i = 1 .. GLOW_STEPS`, each a full `draw_spokes` at the pass width and alpha. -/
noncomputable def glow_ops (levels : List ℝ) (steps : ℕ) : List DrawOp :=
  (List.range steps).flatMap
    (fun j => draw_spokes levels (255, 255, 255, glow_alpha steps (j + 1)) (glow_width (j + 1)))

/-- The frame canvas rendered at timestamp `t` (source lines 173-202): a
private copy of the shared background, onto which are drawn the optional base
ring, the optional glow passes, and the final sharp spokes. -/
noncomputable def frame_canvas (st : VisState) (t : ℚ) : Canvas :=
  let levels := frame_levels st t
  let ring := if BASE_RING_ON = true ∧ 0 < BASE_RING_W then [base_ring_op] else []
  let glow := if GLOW_ON = true ∧ 0 < GLOW_STEPS then glow_ops levels GLOW_STEPS else []
  { base := st.bg
    ops := ring ++ glow ++ draw_spokes levels (255, 255, 255, 255) BAR_THICKNESS }

/-- Embedding of `make_frame_rgb` (source lines 173-202) together with the module state it
leaves behind: the function only reads `audio`, `BG_BASE` and `BAND_EDGES` and
draws on `BG_BASE.copy()`, so the state component is returned as received. -/
noncomputable def make_frame_rgb (st : VisState) (t : ℚ) : Canvas × VisState :=
  (frame_canvas st t, st)

/-- Result of `load_and_fit_background` (source lines 62-90), described by the
resized source size, the output canvas size, and where the resized image's
top-left corner lands in output coordinates (negative crop offsets of the
cover branch become positive placement offsets, with black outside the
image, as PIL `crop` pads out-of-bounds areas with zeros). -/
structure FitResult : Type where
  newW : ℤ
  newH : ℤ
  outW : ℤ
  outH : ℤ
  offX : ℤ
  offY : ℤ
  deriving DecidableEq

/-- Embedding of `load_and_fit_background` (source lines 62-90) on a source of size
`srcW × srcH` and target `w × h`.  The `contain` branch letterboxes by pasting
the resized image centered on a black canvas; every other mode takes the other
branch, which resizes and then crops `(x, y, x + w, y + h)` with
`x = (new_w - w) // 2`, `y = (new_h - h) // 2` (Python floor division). -/
def load_and_fit_background (srcW srcH w h : ℕ) (mode : String) : FitResult :=
  let targetAspect : ℚ := (w : ℚ) / (h : ℚ)
  let srcAspect : ℚ := (srcW : ℚ) / (srcH : ℚ)
  if mode = "contain" then
    let nw : ℤ := if targetAspect < srcAspect then (w : ℤ) else round ((h : ℚ) * srcAspect)
    let nh : ℤ := if targetAspect < srcAspect then round ((w : ℚ) / srcAspect) else (h : ℤ)
    { newW := nw, newH := nh, outW := (w : ℤ), outH := (h : ℤ)
      offX := Int.fdiv ((w : ℤ) - nw) 2, offY := Int.fdiv ((h : ℤ) - nh) 2 }
  else
    let nw : ℤ := if srcAspect < targetAspect then round ((h : ℚ) * srcAspect) else (w : ℤ)
    let nh : ℤ := if srcAspect < targetAspect then (h : ℤ) else round ((w : ℚ) / srcAspect)
    { newW := nw, newH := nh, outW := (w : ℤ), outH := (h : ℤ)
      offX := -(Int.fdiv (nw - (w : ℤ)) 2), offY := -(Int.fdiv (nh - (h : ℤ)) 2) }

/-- C8: the frame pipeline is a pure function of the timestamp and the static
state (audio track, background, edges, configuration): running it twice at the
same timestamp yields identical BandLevels and an identical frame, and it
leaves no cross-frame mutable state behind. -/
theorem make_frame_rgb_deterministic (st : VisState) (t : ℚ) :
    frame_levels (make_frame_rgb st t).2 t = frame_levels st t ∧
    (make_frame_rgb (make_frame_rgb st t).2 t).1 = (make_frame_rgb st t).1 ∧
    (make_frame_rgb st t).2 = st :=
  ⟨rfl, rfl, rfl⟩

/-- C9: rendering a frame leaves the shared fitted background and the
precomputed band edges unchanged, and the frame draws on a private copy whose
starting pixels are the shared background (the draw list is attached to the
copy, never to the shared original). -/
theorem make_frame_rgb_preserves_background (st : VisState) (t : ℚ) :
    (make_frame_rgb st t).2.bg = st.bg ∧
    (make_frame_rgb st t).2.edges = st.edges ∧
    (make_frame_rgb st t).1.base = st.bg :=
  ⟨rfl, rfl, rfl⟩

/-- C10: evaluating the background fitter at a square 2160×2160 source and the
3840×2160 target in mode `"cover"` (≠ `"contain"`).  The resized image is only
2160 px wide on a 3840 px canvas, placed at x-offset 840, i.e. the crop box of
the source has negative offsets and PIL pads 840 px of black on each side:
the "cover" branch letterboxes instead of cropping to fill. -/
theorem load_and_fit_cover_eval :
    load_and_fit_background 2160 2160 3840 2160 "cover" =
      { newW := 2160, newH := 2160, outW := 3840, outH := 2160
        offX := 840, offY := 0 } ∧
    ¬ ("cover" = "contain") ∧
    (load_and_fit_background 2160 2160 3840 2160 "cover").newW <
      (load_and_fit_background 2160 2160 3840 2160 "cover").outW ∧
    0 < (load_and_fit_background 2160 2160 3840 2160 "cover").offX := by
  have hm : ¬ ("cover" = "contain") := by decide
  have hfd : Int.fdiv (-1680 : ℤ) 2 = -840 := by decide
  have heval : load_and_fit_background 2160 2160 3840 2160 "cover" =
      { newW := 2160, newH := 2160, outW := 3840, outH := 2160
        offX := 840, offY := 0 } := by
    simp only [load_and_fit_background, if_neg hm]
    norm_num [round_eq, hfd]
  refine ⟨heval, hm, ?_, ?_⟩ <;> rw [heval] <;> decide

/-- Python `int()` truncation agrees with the floor on nonnegative rationals. -/
theorem pyInt_eq_floor (q : ℚ) (hq : 0 ≤ q) : pyInt q = ⌊q⌋ := by
  simp [pyInt, not_lt.mpr hq]

/-- Nonnegativity of the glow-alpha operand for passes `j ≤ N`. -/
theorem glow_alpha_arg_nonneg (N j : ℕ) (hN : 1 ≤ N) (hj : j ≤ N) :
    (0 : ℚ) ≤ (GLOW_ALPHA : ℚ) * (1 - ((j : ℚ) - 1) / max 1 (N : ℚ)) := by
  have hNQ : (1 : ℚ) ≤ (N : ℚ) := by exact_mod_cast hN
  have hN0 : (0 : ℚ) < (N : ℚ) := by linarith
  have hjQ : (j : ℚ) ≤ (N : ℚ) := by exact_mod_cast hj
  rw [max_eq_right hNQ]
  have hdiv : ((j : ℚ) - 1) / (N : ℚ) ≤ 1 := by
    rw [div_le_one hN0]; linarith
  have h80 : (0 : ℚ) ≤ (GLOW_ALPHA : ℚ) := by norm_num [GLOW_ALPHA]
  nlinarith

/-- C6 (amended): for glow enabled with `N ≥ 1` passes, the pass alpha
`max(0, ⌊GLOW_ALPHA * (1 - (i-1)/N)⌋)` (Python `int()` truncation, which equals
the floor here) is non-increasing in the pass index, the pass width
`BAR_THICKNESS + i * GLOW_EXPAND` is strictly increasing, there are exactly
`N` glow passes, and the final sharp pass `(BAR_THICKNESS, 255)` is drawn
last, at full opacity. -/
theorem glow_spec (N i : ℕ) (hN : 1 ≤ N) (h1 : 1 ≤ i) (hiN : i < N) :
    glow_alpha N (i + 1) ≤ glow_alpha N i ∧
    glow_width i < glow_width (i + 1) ∧
    (glow_passes N).length = N ∧
    (frame_passes true N).getLast? = some (BAR_THICKNESS, 255) := by
  have hNQ : (1 : ℚ) ≤ (N : ℚ) := by exact_mod_cast hN
  have hN0 : (0 : ℚ) < (N : ℚ) := by linarith
  refine ⟨?_, ?_, ?_, ?_⟩
  · have ha := glow_alpha_arg_nonneg N (i + 1) hN (by omega)
    have hb := glow_alpha_arg_nonneg N i hN (by omega)
    have hmono : (GLOW_ALPHA : ℚ) * (1 - (((i + 1 : ℕ) : ℚ) - 1) / max 1 (N : ℚ)) ≤
        (GLOW_ALPHA : ℚ) * (1 - ((i : ℚ) - 1) / max 1 (N : ℚ)) := by
      rw [max_eq_right hNQ]
      have hdd : ((i : ℚ) - 1) / (N : ℚ) ≤ (((i + 1 : ℕ) : ℚ) - 1) / (N : ℚ) := by
        apply (div_le_div_iff_of_pos_right hN0).mpr
        push_cast
        linarith
      have h80 : (0 : ℚ) ≤ (GLOW_ALPHA : ℚ) := by norm_num [GLOW_ALPHA]
      nlinarith
    simp only [glow_alpha, pyInt_eq_floor _ ha, pyInt_eq_floor _ hb]
    exact max_le_max le_rfl (Int.floor_le_floor hmono)
  · simp only [glow_width, BAR_THICKNESS, GLOW_EXPAND]
    push_cast
    omega
  · simp [glow_passes]
  · have hfp : frame_passes true N = glow_passes N ++ [(BAR_THICKNESS, 255)] := by
      simp [frame_passes, Nat.lt_of_lt_of_le Nat.zero_lt_one hN]
    rw [hfp, List.getLast?_concat]

/-- C6 counterexample to the claim's `round` formula: at `N = 3`, `i = 3` the
code's pass alpha (`int()` truncation) is 26, while
`max(0, round(GLOW_ALPHA * (1 - (i-1)/N)))` is 27. -/
theorem glow_alpha_counterexample :
    glow_alpha 3 3 = 26 ∧
    max 0 (round ((GLOW_ALPHA : ℚ) * (1 - ((3 : ℚ) - 1) / 3))) = 27 ∧
    (26 : ℤ) ≠ 27 := by
  refine ⟨?_, ?_, by decide⟩
  · have hmax : max (1 : ℚ) ((3 : ℕ) : ℚ) = 3 := by
      rw [max_eq_right] <;> norm_num
    have harg : (GLOW_ALPHA : ℚ) * (1 - (((3 : ℕ) : ℚ) - 1) / max 1 ((3 : ℕ) : ℚ)) =
        80 / 3 := by
      rw [hmax]; norm_num [GLOW_ALPHA]
    have hfl : pyInt (80 / 3 : ℚ) = 26 := by
      rw [pyInt_eq_floor _ (by norm_num)]
      norm_num
    simp only [glow_alpha, harg, hfl]
    decide
  · norm_num [GLOW_ALPHA, round_eq]

/-- C4: bar geometry.  The bar length is exactly `BAR_MIN` at level 0 and
exactly `BAR_MIN + BAR_MAX_EXTRA` at level 1, is monotone non-decreasing in
the level, and the `i`-th spoke drawn by `draw_spokes` is the segment from
`(cx + R·cosθ, cy + R·sinθ)` to `(cx + (R+h)·cosθ, cy + (R+h)·sinθ)` at
`θ = 2π·i/B`. -/
theorem draw_spokes_spec (x y : ℝ) (hxy : x ≤ y) (levels : List ℝ) (i : ℕ)
    (hi : i < levels.length) (c : ℤ × ℤ × ℤ × ℤ) (wd : ℤ) :
    bar_height 0 = BAR_MIN ∧
    bar_height 1 = BAR_MIN + BAR_MAX_EXTRA ∧
    bar_height x ≤ bar_height y ∧
    (draw_spokes levels c wd)[i]? =
      some (DrawOp.line
        ((CX + BASE_RADIUS * Real.cos (2 * Real.pi * (i : ℝ) / (levels.length : ℝ)),
          CY + BASE_RADIUS * Real.sin (2 * Real.pi * (i : ℝ) / (levels.length : ℝ))),
         (CX + (BASE_RADIUS + bar_height (levels.getD i 0)) *
            Real.cos (2 * Real.pi * (i : ℝ) / (levels.length : ℝ)),
          CY + (BASE_RADIUS + bar_height (levels.getD i 0)) *
            Real.sin (2 * Real.pi * (i : ℝ) / (levels.length : ℝ))))
        c (max 1 wd)) := by
  refine ⟨?_, ?_, ?_, ?_⟩
  · have h0 : min (max (0 : ℝ) 0) 1 = 0 := by norm_num
    rw [bar_height, h0, Real.zero_rpow (by norm_num), mul_zero, add_zero]
  · have h1 : min (max (1 : ℝ) 0) 1 = 1 := by norm_num
    rw [bar_height, h1, Real.one_rpow, mul_one]
  · have hcx : (0 : ℝ) ≤ min (max x 0) 1 := le_min (le_max_right x 0) zero_le_one
    have hcm : min (max x 0) 1 ≤ min (max y 0) 1 :=
      min_le_min (max_le_max hxy le_rfl) le_rfl
    have hr : min (max x 0) 1 ^ (0.9 : ℝ) ≤ min (max y 0) 1 ^ (0.9 : ℝ) :=
      Real.rpow_le_rpow hcx hcm (by norm_num)
    have hex : (0 : ℝ) ≤ BAR_MAX_EXTRA := by norm_num [BAR_MAX_EXTRA]
    rw [bar_height, bar_height]
    have := mul_le_mul_of_nonneg_left hr hex
    linarith
  · simp [draw_spokes, spoke_seg, spoke_theta, hi]

/-- C7: `fft_magnitude` returns a single zero-magnitude bin when `n ≤ 1`, and
otherwise the one-sided DFT magnitude spectrum of length `⌊n/2⌋ + 1` together
with the equal-length frequency bin centers `k·sr/n`, all of which lie in
`[0, sr/2]` (Nyquist). -/
theorem fft_magnitude_spec (sig : List ℝ) (sr : ℝ) (hsr : 0 < sr) :
    (sig.length ≤ 1 → fft_magnitude sig sr = ([0], [0])) ∧
    (1 < sig.length →
      (fft_magnitude sig sr).1.length = sig.length / 2 + 1 ∧
      (fft_magnitude sig sr).2.length = sig.length / 2 + 1 ∧
      (∀ k, k < sig.length / 2 + 1 →
        (fft_magnitude sig sr).1[k]? = some ((k : ℝ) * sr / (sig.length : ℝ)) ∧
        (fft_magnitude sig sr).2[k]? = some (Complex.abs (dftPoint sig k))) ∧
      (∀ f ∈ (fft_magnitude sig sr).1, 0 ≤ f ∧ f ≤ sr / 2)) := by
  constructor
  · intro h
    simp [fft_magnitude, h]
  · intro h
    have hn : ¬ sig.length ≤ 1 := by omega
    have hn0 : (0 : ℝ) < (sig.length : ℝ) := by
      have : 0 < sig.length := by omega
      exact_mod_cast this
    refine ⟨by simp [fft_magnitude, hn], by simp [fft_magnitude, hn], ?_, ?_⟩
    · intro k hk
      constructor <;> simp [fft_magnitude, hn, hk]
    · intro f hf
      simp only [fft_magnitude, if_neg hn] at hf
      rcases List.mem_map.mp hf with ⟨k, hk, rfl⟩
      have hk2 : k < sig.length / 2 + 1 := List.mem_range.mp hk
      have hk3 : 2 * k ≤ sig.length := by omega
      have hk3R : 2 * (k : ℝ) ≤ (sig.length : ℝ) := by exact_mod_cast hk3
      constructor
      · positivity
      · rw [div_le_div_iff₀ hn0 two_pos]
        nlinarith

/-- Length shape of `get_audio_window`: the fallback length when the
extraction is empty, and the extraction's own length otherwise. -/
theorem get_audio_window_length (track : AudioTrack) (t win : ℚ) (sr : ℕ) :
    (get_audio_window track t win sr).length =
      if (track.samples (audio_window_range track.duration t win).1
            (audio_window_range track.duration t win).2 sr).length = 0
      then Int.toNat ⌊(sr : ℚ) * win⌋
      else (track.samples (audio_window_range track.duration t win).1
            (audio_window_range track.duration t win).2 sr).length := by
  rw [get_audio_window]
  split <;> simp

/-- C5: the audio window extractor.  For every timestamp in `[0, D)` the
window has at least 1 sample; its nominal length is
`round(WINDOW_SEC * SR) = 4410`, attained whenever the (external,
spec-modelled) sub-range reader returns the nominal untruncated sample count;
and an empty extraction yields the zero-filled window of the nominal length as
a defined fallback, not an error. -/
theorem get_audio_window_spec (track : AudioTrack) (t : ℚ)
    (ht0 : 0 ≤ t) (ht1 : t < track.duration) :
    1 ≤ (get_audio_window track t WINDOW_SEC SR).length ∧
    (round (WINDOW_SEC * (SR : ℚ))).toNat = 4410 ∧
    (WINDOW_SEC / 2 ≤ t → t + WINDOW_SEC / 2 ≤ track.duration →
      (track.samples (t - WINDOW_SEC / 2) (t + WINDOW_SEC / 2) SR).length = 4410 →
      (get_audio_window track t WINDOW_SEC SR).length = 4410) ∧
    (track.samples (audio_window_range track.duration t WINDOW_SEC).1
        (audio_window_range track.duration t WINDOW_SEC).2 SR = [] →
      get_audio_window track t WINDOW_SEC SR = List.replicate 4410 0) := by
  have hfl : Int.toNat ⌊(SR : ℚ) * WINDOW_SEC⌋ = 4410 := by
    have h1 : ((SR : ℚ)) * WINDOW_SEC = 4410 := by norm_num [SR, WINDOW_SEC]
    have h2 : ⌊(4410 : ℚ)⌋ = 4410 := by norm_num
    rw [h1, h2]
    rfl
  refine ⟨?_, ?_, ?_, ?_⟩
  · rw [get_audio_window_length]
    split
    · omega
    · omega
  · have h1 : WINDOW_SEC * ((SR : ℕ) : ℚ) = 4410 := by norm_num [SR, WINDOW_SEC]
    have h2 : round (4410 : ℚ) = 4410 := by norm_num [round_eq]
    rw [h1, h2]
    rfl
  · intro h1 h2 h3
    have hpos : (0 : ℚ) < WINDOW_SEC := by norm_num [WINDOW_SEC]
    have hrange : audio_window_range track.duration t WINDOW_SEC =
        (t - WINDOW_SEC / 2, t + WINDOW_SEC / 2) := by
      simp only [audio_window_range]
      rw [max_eq_right (by linarith), min_eq_right h2,
        if_neg (not_le.mpr (by linarith))]
    rw [get_audio_window_length, hrange]
    simp [h3]
  · intro he
    rw [get_audio_window]
    simp only [he, List.length_nil]
    rw [if_pos trivial, hfl]

/-- Lower bound of the clamped low cutoff (source line 129). -/
theorem clamped_lo_one_le (sr low high : ℝ) : 1 ≤ (clamped_lo_hi sr low high).1 := by
  simp only [clamped_lo_hi]
  exact le_max_left _ _

/-- The clamped cutoffs satisfy `lo < hi` (source lines 128-131). -/
theorem clamped_lo_lt_hi (sr low high : ℝ) :
    (clamped_lo_hi sr low high).1 < (clamped_lo_hi sr low high).2 := by
  simp only [clamped_lo_hi]
  by_cases h : min high (sr / 2 - 1) ≤ max 1 (min low (min high (sr / 2 - 1) - 1))
  · rw [if_pos h]; exact lt_add_one _
  · rw [if_neg h]; exact not_le.mp h

/-- For `sr > 4` the clamped high cutoff stays below the Nyquist frequency. -/
theorem clamped_hi_lt_half (sr low high : ℝ) (hsr : 4 < sr) :
    (clamped_lo_hi sr low high).2 < sr / 2 := by
  simp only [clamped_lo_hi]
  by_cases h : min high (sr / 2 - 1) ≤ max 1 (min low (min high (sr / 2 - 1) - 1))
  · rw [if_pos h]
    have hm : min low (min high (sr / 2 - 1) - 1) ≤ 1 := by
      by_contra hc
      push_neg at hc
      have h1 : max 1 (min low (min high (sr / 2 - 1) - 1)) =
          min low (min high (sr / 2 - 1) - 1) := max_eq_right (le_of_lt hc)
      rw [h1] at h
      have h2 : min low (min high (sr / 2 - 1) - 1) ≤ min high (sr / 2 - 1) - 1 :=
        min_le_right _ _
      linarith
    rw [max_eq_left hm]
    linarith
  · rw [if_neg h]
    have := min_le_right high (sr / 2 - 1)
    linarith

/-- C3 (amended): for every sample rate `sr > 4` and band count `B ≥ 1` the
band edge calculator returns exactly `B+1` strictly increasing geometric
progression points `lo * (hi/lo) ^ (k/B)` between the clamped cutoffs, with
`edges[0] = lo ≥ 1` and `edges[B] = hi < sr/2`. -/
theorem compute_band_edges_spec (sr low high : ℝ) (bands : ℕ)
    (hsr : 4 < sr) (hb : 1 ≤ bands) :
    (compute_band_edges sr low high bands).length = bands + 1 ∧
    (∀ i j (hi : i < (compute_band_edges sr low high bands).length)
        (hj : j < (compute_band_edges sr low high bands).length), i < j →
      (compute_band_edges sr low high bands).get ⟨i, hi⟩ <
        (compute_band_edges sr low high bands).get ⟨j, hj⟩) ∧
    (∀ k, k ≤ bands → (compute_band_edges sr low high bands)[k]? =
      some ((clamped_lo_hi sr low high).1 *
        ((clamped_lo_hi sr low high).2 / (clamped_lo_hi sr low high).1) ^
          ((k : ℝ) / (bands : ℝ)))) ∧
    (compute_band_edges sr low high bands)[0]? =
      some ((clamped_lo_hi sr low high).1) ∧
    1 ≤ (clamped_lo_hi sr low high).1 ∧
    (compute_band_edges sr low high bands)[bands]? =
      some ((clamped_lo_hi sr low high).2) ∧
    (clamped_lo_hi sr low high).2 < sr / 2 := by
  have hlo1 : 1 ≤ (clamped_lo_hi sr low high).1 := clamped_lo_one_le sr low high
  have hlo0 : 0 < (clamped_lo_hi sr low high).1 := lt_of_lt_of_le one_pos hlo1
  have hlh : (clamped_lo_hi sr low high).1 < (clamped_lo_hi sr low high).2 :=
    clamped_lo_lt_hi sr low high
  have hr : 1 < (clamped_lo_hi sr low high).2 / (clamped_lo_hi sr low high).1 :=
    (one_lt_div hlo0).mpr hlh
  have hb0 : (0 : ℝ) < (bands : ℝ) := by
    have : 0 < bands := hb
    exact_mod_cast this
  refine ⟨by simp [compute_band_edges], ?_, ?_, ?_, hlo1, ?_, clamped_hi_lt_half sr low high hsr⟩
  · intro i j hi hj hij
    simp only [compute_band_edges, List.length_map, List.length_range] at hi hj
    simp only [compute_band_edges, List.get_eq_getElem, List.getElem_map, List.getElem_range]
    refine mul_lt_mul_of_pos_left ?_ hlo0
    refine (Real.rpow_lt_rpow_left_iff hr).mpr ?_
    refine (div_lt_div_iff_of_pos_right hb0).mpr ?_
    exact_mod_cast hij
  · intro k hk
    have hk1 : k < bands + 1 := by omega
    simp [compute_band_edges, hk1]
  · have h0 : (0 : ℕ) < bands + 1 := by omega
    simp only [compute_band_edges, List.getElem?_map, List.getElem?_range h0,
      Option.map_some', Nat.cast_zero, zero_div, Real.rpow_zero, mul_one]
  · have hbb : bands < bands + 1 := by omega
    have hd : ((bands : ℝ) / (bands : ℝ)) = 1 := div_self (ne_of_gt hb0)
    simp only [compute_band_edges, List.getElem?_map, List.getElem?_range hbb,
      Option.map_some']
    rw [hd, Real.rpow_one, mul_comm, div_mul_cancel₀ _ (ne_of_gt hlo0)]

/-- Witness of C3's amended theorem at the program configuration
(`sr = 44100`, cutoffs 30 and 12000, 360 bands). -/
theorem compute_band_edges_spec_witness :
    (4 : ℝ) < 44100 ∧ 1 ≤ 360 ∧
    ((compute_band_edges 44100 30 12000 360).length = 360 + 1 ∧
    (∀ i j (hi : i < (compute_band_edges 44100 30 12000 360).length)
        (hj : j < (compute_band_edges 44100 30 12000 360).length), i < j →
      (compute_band_edges 44100 30 12000 360).get ⟨i, hi⟩ <
        (compute_band_edges 44100 30 12000 360).get ⟨j, hj⟩) ∧
    (∀ k : ℕ, k ≤ 360 → (compute_band_edges 44100 30 12000 360)[k]? =
      some ((clamped_lo_hi 44100 30 12000).1 *
        ((clamped_lo_hi 44100 30 12000).2 / (clamped_lo_hi 44100 30 12000).1) ^
          ((k : ℝ) / ((360 : ℕ) : ℝ)))) ∧
    (compute_band_edges 44100 30 12000 360)[0]? =
      some ((clamped_lo_hi 44100 30 12000).1) ∧
    1 ≤ (clamped_lo_hi 44100 30 12000).1 ∧
    (compute_band_edges 44100 30 12000 360)[360]? =
      some ((clamped_lo_hi 44100 30 12000).2) ∧
    (clamped_lo_hi 44100 30 12000).2 < 44100 / 2) :=
  ⟨by norm_num, by norm_num,
    compute_band_edges_spec 44100 30 12000 360 (by norm_num) (by norm_num)⟩

/-- C3 counterexample to the claimed `sr > 2` bound: at `sr = 3` (with the
configured cutoffs and one band) the forced `hi = lo + 1` clamp produces
edges `[1, 2]`, whose last edge is not below `sr / 2 = 1.5`. -/
theorem compute_band_edges_counterexample :
    (2 : ℝ) < 3 ∧ (1 : ℕ) ≤ 1 ∧
    compute_band_edges 3 30 12000 1 = [1, 2] ∧
    ¬ ((2 : ℝ) < 3 / 2) := by
  refine ⟨by norm_num, le_rfl, ?_, by norm_num⟩
  have hch : clamped_lo_hi 3 30 12000 = (1, 2) := by
    simp only [clamped_lo_hi]
    rw [min_eq_right (by norm_num), min_eq_right (by norm_num),
      max_eq_left (by norm_num), if_pos (by norm_num)]
    norm_num
  simp only [compute_band_edges, hch]
  norm_num [List.range_succ]

/-- A defaulted list read is either a member of the list or the default. -/
theorem getD_mem_or_default (l : List ℝ) (i : ℕ) (d : ℝ) :
    l.getD i d ∈ l ∨ l.getD i d = d := by
  rw [List.getD_eq_getElem?_getD]
  cases hq : l[i]? with
  | none => simp
  | some a =>
    left
    simpa using List.getElem?_mem hq

/-- Every band sum is nonnegative when all magnitudes are. -/
theorem band_sums_nonneg (edges freqs mags : List ℝ) (hm : ∀ m ∈ mags, 0 ≤ m) :
    ∀ v ∈ band_sums edges freqs mags, 0 ≤ v := by
  intro v hv
  simp only [band_sums, List.mem_map, List.mem_range] at hv
  obtain ⟨i, _, rfl⟩ := hv
  apply List.sum_nonneg
  intro y hy
  simp only [List.mem_map] at hy
  obtain ⟨p, hp, rfl⟩ := hy
  rcases p with ⟨f, m⟩
  have hz : (f, m) ∈ freqs.zip mags :=
    List.mem_of_mem_filter (List.mem_of_mem_filter hp)
  exact hm m (List.of_mem_zip hz).2

/-- All band sums vanish when every magnitude is zero. -/
theorem band_sums_zero_of_mags_zero (edges freqs mags : List ℝ)
    (hm : ∀ m ∈ mags, m = 0) : ∀ v ∈ band_sums edges freqs mags, v = 0 := by
  intro v hv
  simp only [band_sums, List.mem_map, List.mem_range] at hv
  obtain ⟨i, _, rfl⟩ := hv
  apply List.sum_eq_zero
  intro y hy
  simp only [List.mem_map] at hy
  obtain ⟨p, hp, rfl⟩ := hy
  rcases p with ⟨f, m⟩
  have hz : (f, m) ∈ freqs.zip mags :=
    List.mem_of_mem_filter (List.mem_of_mem_filter hp)
  exact hm m (List.of_mem_zip hz).2

/-- All band sums vanish when no spectrum bin is kept. -/
theorem band_sums_zero_of_kept_nil (edges freqs mags : List ℝ)
    (h : keptPairs edges freqs mags = []) :
    ∀ v ∈ band_sums edges freqs mags, v = 0 := by
  intro v hv
  simp only [band_sums, h, List.filter_nil, List.map_nil, List.sum_nil,
    List.mem_map, List.mem_range] at hv
  obtain ⟨i, _, rfl⟩ := hv
  rfl

/-- Nonnegativity of `log1p` on nonnegative input. -/
theorem log1p_nonneg (x : ℝ) (hx : 0 ≤ x) : 0 ≤ log1p x :=
  Real.log_nonneg (by linarith)

/-- Value of `log1p` at zero. -/
theorem log1p_zero : log1p 0 = 0 := by
  rw [log1p, add_zero, Real.log_one]

/-- The length of the smoothed sequence equals the input length. -/
theorem smooth9_length (l : List ℝ) : (smooth9 l).length = l.length := by
  simp [smooth9]

/-- Edge-padded reads of a pointwise-nonnegative list are nonnegative. -/
theorem edgePad4_nonneg (l : List ℝ) (h : ∀ v ∈ l, 0 ≤ v) (j : ℕ) :
    0 ≤ edgePad4 l j := by
  rw [edgePad4]
  rcases getD_mem_or_default l (min (j - 4) (l.length - 1)) 0 with hmem | hdef
  · exact h _ hmem
  · rw [hdef]

/-- Edge-padded reads of an all-zero list are zero. -/
theorem edgePad4_zero (l : List ℝ) (h : ∀ v ∈ l, v = 0) (j : ℕ) :
    edgePad4 l j = 0 := by
  rw [edgePad4]
  rcases getD_mem_or_default l (min (j - 4) (l.length - 1)) 0 with hmem | hdef
  · exact h _ hmem
  · exact hdef

/-- Entries of the smoothed sequence are nonnegative for nonnegative input. -/
theorem smooth9_nonneg (l : List ℝ) (h : ∀ v ∈ l, 0 ≤ v) :
    ∀ v ∈ smooth9 l, 0 ≤ v := by
  intro v hv
  simp only [smooth9, List.mem_map, List.mem_range] at hv
  obtain ⟨k, _, rfl⟩ := hv
  apply div_nonneg _ (by norm_num)
  apply Finset.sum_nonneg
  intro d _
  exact edgePad4_nonneg l h (k + d)

/-- The smoothed sequence of an all-zero list is all-zero. -/
theorem smooth9_zero (l : List ℝ) (h : ∀ v ∈ l, v = 0) :
    ∀ v ∈ smooth9 l, v = 0 := by
  intro v hv
  simp only [smooth9, List.mem_map, List.mem_range] at hv
  obtain ⟨k, _, rfl⟩ := hv
  have : ∀ d ∈ Finset.range 9, edgePad4 l (k + d) = 0 := fun d _ => edgePad4_zero l h (k + d)
  rw [Finset.sum_congr rfl this]
  simp

/-- Length of the compressed and smoothed band block. -/
theorem band_block_length (freqs mags edges : List ℝ) :
    (band_block freqs mags edges).length = edges.length - 1 := by
  rw [band_block]
  split <;> simp [smooth9_length, band_sums]

/-- Entries of the band block are nonnegative when magnitudes are. -/
theorem band_block_nonneg (freqs mags edges : List ℝ) (hm : ∀ m ∈ mags, 0 ≤ m) :
    ∀ v ∈ band_block freqs mags edges, 0 ≤ v := by
  have hsum := band_sums_nonneg edges freqs mags hm
  have hl2 : ∀ v ∈ (band_sums edges freqs mags).map log1p, 0 ≤ v := by
    intro v hv
    simp only [List.mem_map] at hv
    obtain ⟨w, hw, rfl⟩ := hv
    exact log1p_nonneg w (hsum w hw)
  rw [band_block]
  split
  · exact smooth9_nonneg _ hl2
  · exact hl2

/-- The band block collapses to the all-zero vector whenever all band sums
vanish. -/
theorem band_block_eq_replicate (freqs mags edges : List ℝ)
    (hz : ∀ v ∈ band_sums edges freqs mags, v = 0) :
    band_block freqs mags edges = List.replicate (edges.length - 1) 0 := by
  have hl2 : ∀ v ∈ (band_sums edges freqs mags).map log1p, v = 0 := by
    intro v hv
    simp only [List.mem_map] at hv
    obtain ⟨w, hw, rfl⟩ := hv
    rw [hz w hw, log1p_zero]
  rw [List.eq_replicate_iff]
  refine ⟨band_block_length freqs mags edges, ?_⟩
  intro b hb
  rw [band_block] at hb
  revert hb
  split
  · intro hb; exact smooth9_zero _ hl2 b hb
  · intro hb; exact hl2 b hb

/-- An initial accumulator is dominated by the fold of `max` over a list. -/
theorem init_le_foldl_max (xs : List ℝ) : ∀ a : ℝ, a ≤ xs.foldl max a := by
  induction xs with
  | nil => intro a; simp
  | cons b t ih =>
    intro a
    simp only [List.foldl_cons]
    exact le_trans (le_max_left a b) (ih (max a b))

/-- Every member of a list is dominated by the fold of `max` over it. -/
theorem mem_le_foldl_max (xs : List ℝ) : ∀ (a v : ℝ), v ∈ xs → v ≤ xs.foldl max a := by
  induction xs with
  | nil => intro a v hv; simp at hv
  | cons b t ih =>
    intro a v hv
    simp only [List.foldl_cons]
    rcases List.mem_cons.mp hv with rfl | hvt
    · exact le_trans (le_max_right a v) (init_le_foldl_max t (max a v))
    · exact ih (max a b) v hvt

/-- The source's `out.max()` dominates every entry. -/
theorem le_npMax (l : List ℝ) : ∀ v ∈ l, v ≤ npMax l := by
  intro v hv
  cases l with
  | nil => simp at hv
  | cons x xs =>
    rw [npMax]
    rcases List.mem_cons.mp hv with rfl | hvt
    · exact init_le_foldl_max xs v
    · exact mem_le_foldl_max xs x v hvt

/-- Folding `max` stays below a common upper bound. -/
theorem foldl_max_le_of_le (t : List ℝ) :
    ∀ a c : ℝ, a ≤ c → (∀ v ∈ t, v ≤ c) → t.foldl max a ≤ c := by
  induction t with
  | nil => intro a c ha _; simpa using ha
  | cons b s ih =>
    intro a c ha hall
    simp only [List.foldl_cons]
    exact ih (max a b) c (max_le ha (hall b (by simp)))
      (fun v hv => hall v (by simp [hv]))

/-- A common upper bound of `0` and all entries bounds `npMax`. -/
theorem npMax_le (l : List ℝ) (c : ℝ) (h0 : 0 ≤ c) (h : ∀ v ∈ l, v ≤ c) :
    npMax l ≤ c := by
  cases l with
  | nil => rw [npMax]; exact h0
  | cons x xs =>
    rw [npMax]
    exact foldl_max_le_of_le xs x c (h x (by simp)) (fun v hv => h v (by simp [hv]))

/-- C2: with nonnegative magnitudes the aggregator output is component-wise
in `[0,1]`; all-zero magnitudes give all-zero levels; and when the
post-smoothing maximum is at most `1e-8` the values are returned unscaled
instead of being divided. -/
theorem spectrum_to_bands_range (freqs mags edges : List ℝ)
    (hB : 2 ≤ edges.length) (hm : ∀ m ∈ mags, 0 ≤ m) :
    (∀ v ∈ spectrum_to_bands freqs mags edges, 0 ≤ v ∧ v ≤ 1) ∧
    ((∀ m ∈ mags, m = 0) →
      spectrum_to_bands freqs mags edges = List.replicate (edges.length - 1) 0) ∧
    (npMax (band_block freqs mags edges) ≤ NORM_EPS →
      spectrum_to_bands freqs mags edges = band_block freqs mags edges) := by
  have heps : (0 : ℝ) < NORM_EPS := by norm_num [NORM_EPS]
  have heps1 : NORM_EPS ≤ 1 := by norm_num [NORM_EPS]
  refine ⟨?_, ?_, ?_⟩
  · intro v hv
    rw [spectrum_to_bands] at hv
    by_cases hk : keptPairs edges freqs mags = []
    · rw [if_pos hk] at hv
      have := List.eq_of_mem_replicate hv
      subst this
      norm_num
    · rw [if_neg hk] at hv
      have hnn := band_block_nonneg freqs mags edges hm
      by_cases hmx : NORM_EPS < npMax (band_block freqs mags edges)
      · rw [if_pos hmx] at hv
        simp only [List.mem_map] at hv
        obtain ⟨w, hw, rfl⟩ := hv
        have hw0 : 0 ≤ w := hnn w hw
        have hwm : w ≤ npMax (band_block freqs mags edges) := le_npMax _ w hw
        have hmx0 : 0 < npMax (band_block freqs mags edges) := lt_trans heps hmx
        constructor
        · exact div_nonneg hw0 (le_of_lt hmx0)
        · exact (div_le_one hmx0).mpr hwm
      · rw [if_neg hmx] at hv
        push_neg at hmx
        constructor
        · exact hnn v hv
        · exact le_trans (le_trans (le_npMax _ v hv) hmx) heps1
  · intro hz
    have hsz := band_sums_zero_of_mags_zero edges freqs mags hz
    have hrep := band_block_eq_replicate freqs mags edges hsz
    rw [spectrum_to_bands]
    by_cases hk : keptPairs edges freqs mags = []
    · rw [if_pos hk]
    · rw [if_neg hk]
      have hbb : ∀ v ∈ band_block freqs mags edges, v = 0 := by
        intro v hv
        rw [hrep] at hv
        exact List.eq_of_mem_replicate hv
      have hmx : npMax (band_block freqs mags edges) ≤ 0 :=
        npMax_le _ 0 le_rfl (fun v hv => le_of_eq (hbb v hv))
      rw [if_neg (not_lt.mpr (le_trans hmx (le_of_lt heps))), hrep]
  · intro hmx
    rw [spectrum_to_bands]
    by_cases hk : keptPairs edges freqs mags = []
    · rw [if_pos hk]
      exact (band_block_eq_replicate freqs mags edges
        (band_sums_zero_of_kept_nil edges freqs mags hk)).symm
    · rw [if_neg hk, if_neg (not_lt.mpr hmx)]

/-- Witness of C2 at a concrete spectrum and strictly sorted edges. -/
theorem spectrum_to_bands_range_witness :
    2 ≤ ([(1 : ℝ), 2, 4]).length ∧ (∀ m ∈ [(5 : ℝ)], 0 ≤ m) ∧
    ((∀ v ∈ spectrum_to_bands [(2 : ℝ)] [(5 : ℝ)] [(1 : ℝ), 2, 4], 0 ≤ v ∧ v ≤ 1) ∧
    ((∀ m ∈ [(5 : ℝ)], m = 0) →
      spectrum_to_bands [(2 : ℝ)] [(5 : ℝ)] [(1 : ℝ), 2, 4] =
        List.replicate (([(1 : ℝ), 2, 4]).length - 1) 0) ∧
    (npMax (band_block [(2 : ℝ)] [(5 : ℝ)] [(1 : ℝ), 2, 4]) ≤ NORM_EPS →
      spectrum_to_bands [(2 : ℝ)] [(5 : ℝ)] [(1 : ℝ), 2, 4] =
        band_block [(2 : ℝ)] [(5 : ℝ)] [(1 : ℝ), 2, 4])) :=
  ⟨by norm_num, by norm_num,
    spectrum_to_bands_range [(2 : ℝ)] [(5 : ℝ)] [(1 : ℝ), 2, 4]
      (by norm_num) (by norm_num)⟩

/-- Defaulted reads agree with indexing inside the list's range. -/
theorem getD_eq_getElem_of_lt (l : List ℝ) (i : ℕ) (h : i < l.length) :
    l.getD i 0 = l[i] := by
  rw [List.getD_eq_getElem?_getD, List.getElem?_eq_getElem h]
  rfl

/-- In a strictly sorted list, being `≤ x` is equivalent to sitting below the
count of entries `≤ x` — the correctness of the `side="right"` search. -/
theorem sorted_le_iff_lt_countP (x : ℝ) :
    ∀ (l : List ℝ), l.Pairwise (· < ·) → ∀ i, (hi : i < l.length) →
      (l[i] ≤ x ↔ i < l.countP (fun e => decide (e ≤ x))) := by
  intro l
  induction l with
  | nil =>
    intro _ i hi
    simp at hi
  | cons a t ih =>
    intro hs i hi
    have hpt : t.Pairwise (· < ·) := (List.pairwise_cons.mp hs).2
    have hat : ∀ b ∈ t, a < b := (List.pairwise_cons.mp hs).1
    by_cases hax : a ≤ x
    · have hcnt : (a :: t).countP (fun e => decide (e ≤ x)) =
          t.countP (fun e => decide (e ≤ x)) + 1 := by
        rw [List.countP_cons]
        simp [hax]
      rw [hcnt]
      cases i with
      | zero =>
        simp only [List.getElem_cons_zero]
        exact iff_of_true hax (by omega)
      | succ n =>
        have hn : n < t.length := by simpa using hi
        have hiff := ih hpt n hn
        simp only [List.getElem_cons_succ]
        rw [hiff]
        omega
    · have ht0 : t.countP (fun e => decide (e ≤ x)) = 0 := by
        rw [List.countP_eq_zero]
        intro b hb
        simp only [decide_eq_true_eq]
        intro hbx
        exact hax ((hat b hb).le.trans hbx)
      have hcnt : (a :: t).countP (fun e => decide (e ≤ x)) = 0 := by
        rw [List.countP_cons, ht0]
        simp [hax]
      rw [hcnt]
      cases i with
      | zero =>
        simp only [List.getElem_cons_zero]
        exact iff_of_false hax (by omega)
      | succ n =>
        have hn : n < t.length := by simpa using hi
        have hiff := ih hpt n hn
        rw [ht0] at hiff
        simp only [List.getElem_cons_succ]
        exact iff_of_false (fun hc => absurd (hiff.mp hc) (by omega)) (by omega)

/-- C1 (amended): with strictly increasing edges, each band sum is exactly the
total magnitude of the kept bins assigned to it; a kept bin of frequency `f`
is assigned the clamped index `i` with `i < B`, `edges[i] ≤ f`, and either
`f < edges[i+1]` or `i` is the topmost band `B-1` (upper clamp); and bands
with no contributing bins keep sum 0. -/
theorem band_accumulation_spec (edges freqs mags : List ℝ)
    (hsort : List.Chain' (· < ·) edges) (hB : 2 ≤ edges.length) :
    (∀ i, (hi : i < (band_sums edges freqs mags).length) →
      (band_sums edges freqs mags)[i] =
        (((keptPairs edges freqs mags).filter
            (fun p => decide (band_index edges p.1 (edges.length - 1) = i))).map
          Prod.snd).sum) ∧
    (∀ p ∈ keptPairs edges freqs mags,
      band_index edges p.1 (edges.length - 1) < edges.length - 1 ∧
      edges.getD (band_index edges p.1 (edges.length - 1)) 0 ≤ p.1 ∧
      (p.1 < edges.getD (band_index edges p.1 (edges.length - 1) + 1) 0 ∨
        band_index edges p.1 (edges.length - 1) = edges.length - 2)) ∧
    (∀ i, (hi : i < (band_sums edges freqs mags).length) →
      (∀ p ∈ keptPairs edges freqs mags,
        band_index edges p.1 (edges.length - 1) ≠ i) →
      (band_sums edges freqs mags)[i] = 0) := by
  have hp : edges.Pairwise (· < ·) := List.chain'_iff_pairwise.mp hsort
  have hlen0 : 0 < edges.length := by omega
  refine ⟨?_, ?_, ?_⟩
  · intro i hi
    simp only [band_sums, List.getElem_map, List.getElem_range]
  · intro p hpk
    have hmem := List.mem_filter.mp hpk
    have hcond := hmem.2
    rw [decide_eq_true_eq] at hcond
    obtain ⟨hlow, hhigh⟩ := hcond
    have hhead : edges.head?.getD 0 = edges[0] := by
      rw [List.head?_eq_getElem?, List.getElem?_eq_getElem hlen0]
      rfl
    have hlast : edges.getLast?.getD 0 = edges[edges.length - 1] := by
      rw [List.getLast?_eq_getElem?, List.getElem?_eq_getElem (by omega)]
      rfl
    rw [hhead] at hlow
    rw [hlast] at hhigh
    have hiff := sorted_le_iff_lt_countP p.1 edges hp
    have hc1 : 0 < edges.countP (fun e => decide (e ≤ p.1)) :=
      (hiff 0 hlen0).mp hlow
    have hcle : edges.countP (fun e => decide (e ≤ p.1)) ≤ edges.length :=
      List.countP_le_length _
    have hbi : band_index edges p.1 (edges.length - 1) =
        min (edges.countP (fun e => decide (e ≤ p.1)) - 1) (edges.length - 1 - 1) := by
      rw [band_index, searchsorted_right]
    by_cases hcB : edges.countP (fun e => decide (e ≤ p.1)) ≤ edges.length - 1
    · have hidx : band_index edges p.1 (edges.length - 1) =
          edges.countP (fun e => decide (e ≤ p.1)) - 1 := by
        rw [hbi, min_eq_left (by omega)]
      refine ⟨by rw [hidx]; omega, ?_, ?_⟩
      · rw [hidx, getD_eq_getElem_of_lt edges _ (by omega)]
        exact (hiff (edges.countP (fun e => decide (e ≤ p.1)) - 1) (by omega)).mpr (by omega)
      · left
        have hcc : band_index edges p.1 (edges.length - 1) + 1 =
            edges.countP (fun e => decide (e ≤ p.1)) := by
          rw [hidx]; omega
        rw [hcc, getD_eq_getElem_of_lt edges _ (by omega)]
        refine lt_of_not_le (fun hle => ?_)
        exact absurd ((hiff (edges.countP (fun e => decide (e ≤ p.1))) (by omega)).mp hle)
          (by omega)
    · have hl2 : edges.length - 1 - 1 = edges.length - 2 := by omega
      have hidx : band_index edges p.1 (edges.length - 1) = edges.length - 2 := by
        rw [hbi, min_eq_right (by omega), hl2]
      refine ⟨by rw [hidx]; omega, ?_, Or.inr (by rw [hidx])⟩
      rw [hidx, getD_eq_getElem_of_lt edges _ (by omega)]
      exact (hiff (edges.length - 2) (by omega)).mpr (by omega)
  · intro i hi hnone
    have hfil : (keptPairs edges freqs mags).filter
        (fun p => decide (band_index edges p.1 (edges.length - 1) = i)) = [] := by
      rw [List.filter_eq_nil_iff]
      intro p hpk
      simp only [decide_eq_true_eq]
      exact hnone p hpk
    simp only [band_sums, List.getElem_map, List.getElem_range, hfil,
      List.map_nil, List.sum_nil]

/-- C1 counterexample to the claimed right-open convention: with edges
`[1, 2, 4]` the kept bin at frequency 2 satisfies `edges[0] < 2 ≤ edges[1]`,
so the claim assigns its magnitude 5 to band 0; the code's `side="right"`
search assigns it to band 1, leaving band 0 at sum 0 (and 0 ≠ 5). -/
theorem band_claim_counterexample :
    band_sums [(1 : ℝ), 2, 4] [2] [5] = [0, 5] ∧
    (1 : ℝ) < 2 ∧ (2 : ℝ) ≤ 2 ∧ (0 : ℝ) ≠ 5 := by
  have hkept : keptPairs [(1 : ℝ), 2, 4] [2] [5] = [(2, 5)] := by
    rw [keptPairs]
    norm_num [List.filter_cons]
  have hidx : band_index [(1 : ℝ), 2, 4] 2 2 = 1 := by
    rw [band_index, searchsorted_right]
    norm_num [List.countP_cons]
  have hsums : band_sums [(1 : ℝ), 2, 4] [2] [5] = [0, 5] := by
    rw [band_sums, hkept]
    norm_num [List.range_succ, List.filter_cons, hidx]
  exact ⟨hsums, by norm_num, le_rfl, by norm_num⟩

/-- Witness of C1's amended theorem at concrete sorted edges and one bin. -/
theorem band_accumulation_spec_witness :
    List.Chain' (· < ·) [(1 : ℝ), 2, 4] ∧ 2 ≤ ([(1 : ℝ), 2, 4]).length ∧
    (∀ p ∈ keptPairs [(1 : ℝ), 2, 4] [2] [5],
      band_index [(1 : ℝ), 2, 4] p.1 (([(1 : ℝ), 2, 4]).length - 1) <
        ([(1 : ℝ), 2, 4]).length - 1) := by
  have hc : List.Chain' (· < ·) [(1 : ℝ), 2, 4] := by
    norm_num [List.chain'_cons, List.chain'_singleton]
  have hl : 2 ≤ ([(1 : ℝ), 2, 4]).length := by norm_num
  exact ⟨hc, hl, fun p hp =>
    ((band_accumulation_spec [(1 : ℝ), 2, 4] [2] [5] hc hl).2.1 p hp).1⟩

/-- Witness of C4's theorem at level lists and bounds it can evaluate. -/
theorem draw_spokes_spec_witness :
    (0 : ℝ) ≤ 1 ∧ 0 < ([(1 / 2 : ℝ)]).length ∧ bar_height 0 = BAR_MIN :=
  ⟨by norm_num, by norm_num,
    (draw_spokes_spec 0 1 (by norm_num) [(1 / 2 : ℝ)] 0 (by norm_num)
      (255, 255, 255, 255) BAR_THICKNESS).1⟩

/-- Witness of C5's theorem on a 1-second track whose reader returns nothing. -/
theorem get_audio_window_spec_witness :
    (0 : ℚ) ≤ 0 ∧ (0 : ℚ) < 1 ∧
    1 ≤ (get_audio_window ⟨1, fun _ _ _ => []⟩ 0 WINDOW_SEC SR).length :=
  ⟨le_rfl, by norm_num,
    (get_audio_window_spec ⟨1, fun _ _ _ => []⟩ 0 le_rfl (by norm_num)).1⟩

/-- Witness of C6's amended theorem at `N = 3`, `i = 1`. -/
theorem glow_spec_witness :
    1 ≤ 3 ∧ 1 ≤ 1 ∧ 1 < 3 ∧ glow_width 1 < glow_width 2 :=
  ⟨by norm_num, le_rfl, by norm_num,
    (glow_spec 3 1 (by norm_num) le_rfl (by norm_num)).2.1⟩

/-- Witness of C7's theorem at a two-sample signal and the configured rate. -/
theorem fft_magnitude_spec_witness :
    (0 : ℝ) < 44100 ∧
    (([(1 : ℝ), 2]).length ≤ 1 → fft_magnitude [(1 : ℝ), 2] 44100 = ([0], [0])) :=
  ⟨by norm_num, (fft_magnitude_spec [(1 : ℝ), 2] 44100 (by norm_num)).1⟩

end MusicVisualizer
